import Mathlib

/-!
Verification of `scripts/generateReleases.js` (Bruce App Store data generator).

The script is embedded shallowly: parsed JSON documents become the inductive
type `JVal`, the metadata validator and the aggregation pipeline of `main`
become pure functions over explicit state, the paginated search loop becomes a
fuel-indexed recursion, and the `ERRORS.md` report builder becomes a function
producing the report lines.  External effects (HTTP, the file system) are
inputs: each repository comes paired with the outcome of its two fetches, and
the contents of `categories.json`, `blocklist.json` and `releases_manual.json`
are parameters.
-/

/-- Values of a parsed JSON document, plus JavaScript `undefined` (the result
of reading an absent property).  Object fields are kept in insertion order, as
JavaScript objects do for string keys. -/
inductive JVal where
  | undefined : JVal
  | null : JVal
  | bool : Bool → JVal
  | num : Int → JVal
  | str : String → JVal
  | arr : List JVal → JVal
  | obj : List (String × JVal) → JVal
deriving Repr

/-- JavaScript truthiness: `undefined`, `null`, `false`, `0` and `""` are
falsy, everything else (including empty arrays and objects) is truthy. -/
def truthy : JVal → Bool
  | .undefined => false
  | .null => false
  | .bool b => b
  | .num n => !(n == 0)
  | .str s => !(s == "")
  | .arr _ => true
  | .obj _ => true

/-- Property lookup on an object field list: first binding wins. -/
def lookupF : List (String × JVal) → String → JVal
  | [], _ => .undefined
  | (k, v) :: rest, key => if k == key then v else lookupF rest key

/-- JavaScript property read `v[key]`: a field of an object, `undefined`
otherwise.  A read on `null` or `undefined` throws a TypeError in JS;
`getF` itself stays total and those throws are modelled exactly where the
program's control flow meets them: `validateThrows` for the validator and
the entry loop, `appReadThrows` for the manual merge. -/
def getF : JVal → String → JVal
  | .obj fields, key => lookupF fields key
  | _, _ => .undefined

/-- JavaScript property write used by object spread syntax: overwrite the
binding in place when the key is present, append it otherwise. -/
def setF : List (String × JVal) → String → JVal → List (String × JVal)
  | [], key, v => [(key, v)]
  | (k, w) :: rest, key, v =>
      if k == key then (key, v) :: rest else (k, w) :: setF rest key v

mutual

/-- JavaScript string coercion `String(v)` for the values `JVal` can hold.
An array coerces via `Array.prototype.join(",")`: its elements coerced
recursively and joined by commas. -/
def jsToString : JVal → String
  | .undefined => "undefined"
  | .null => "null"
  | .bool b => if b then "true" else "false"
  | .num n => toString n
  | .str s => s
  | .arr xs => jsArrToString xs
  | .obj _ => "[object Object]"

/-- Element list of an array under `join(",")`: a `null` or `undefined`
element contributes the empty string, every other element its coercion. -/
def jsArrToString : List JVal → String
  | [] => ""
  | [.null] => ""
  | [.undefined] => ""
  | [v] => jsToString v
  | .null :: rest => "," ++ jsArrToString rest
  | .undefined :: rest => "," ++ jsArrToString rest
  | v :: rest => jsToString v ++ "," ++ jsArrToString rest

end

/-- JavaScript strict equality `===` between two independently parsed JSON
values: primitives compare by value; two distinct objects or arrays are never
identical, so they compare unequal. -/
def jsStrictEq : JVal → JVal → Bool
  | .undefined, .undefined => true
  | .null, .null => true
  | .bool a, .bool b => a == b
  | .num a, .num b => a == b
  | .str a, .str b => a == b
  | _, _ => false

/-- JavaScript `typeof v === "object"` (true for objects, arrays and `null`). -/
def typeofIsObject : JVal → Bool
  | .obj _ => true
  | .arr _ => true
  | .null => true
  | _ => false

/-- Executable substring test: does `pat` occur contiguously inside `l`? -/
def containsSeq (pat : List Char) : List Char → Bool
  | [] => pat.isEmpty
  | c :: rest => pat.isPrefixOf (c :: rest) || containsSeq pat rest

/-- Source `hasUnsafePath`: the regex `/(\.\.|\\|~)/` tests whether the string
contains `..`, a backslash or a tilde as a substring. -/
def hasUnsafePath (value : String) : Bool :=
  containsSeq "..".data value.data || containsSeq "\\".data value.data ||
    containsSeq "~".data value.data

/-- Source `validateMetadata`, the `entry.files.forEach` body: a `files`
element that is not object-typed or lacks a truthy `source` or `destination`
yields one message and is not path-checked; otherwise each unsafe path yields
its own message.  `hasUnsafePath` receives the JS string coercion of the
value. -/
def fileErrors (pfx : String) (i : Nat) (file : JVal) : List String :=
  if !typeofIsObject file || !truthy (getF file "source") ||
      !truthy (getF file "destination") then
    [pfx ++ "files[" ++ toString i ++
      "] must be an object with \x27source\x27 and \x27destination\x27 keys"]
  else
    (if hasUnsafePath (jsToString (getF file "source")) then
      [pfx ++ "files[" ++ toString i ++ "].source contains invalid or unsafe characters"]
     else []) ++
    (if hasUnsafePath (jsToString (getF file "destination")) then
      [pfx ++ "files[" ++ toString i ++ "].destination contains invalid or unsafe characters"]
     else [])

/-- Source `validateMetadata`, the `forEach` over `entry.files` with its
running index. -/
def filesErrors (pfx : String) : Nat → List JVal → List String
  | _, [] => []
  | i, f :: rest => fileErrors pfx i f ++ filesErrors pfx (i + 1) rest

/-- JavaScript `validCategories.includes(entry.category)` where
`categories.json` holds an array of category name strings. -/
def includesCategory (cats : List String) : JVal → Bool
  | .str c => cats.contains c
  | _ => false

/-- Source `validateMetadata(entry, full_name, index)`: the collected error
list for one descriptor entry, in push order (name, description, files,
category).  `cats` is the list loaded from `categories.json`. -/
def validateMetadata (cats : List String) (entry : JVal) (index : Option Nat) :
    List String :=
  let pfx := match index with
    | some i => "[entry " ++ toString i ++ "] "
    | none => ""
  (if !truthy (getF entry "name") then [pfx ++ "Missing required field: name"] else []) ++
  (if !truthy (getF entry "description") then
    [pfx ++ "Missing required field: description"] else []) ++
  (match getF entry "files" with
    | .arr files =>
        if files.length == 0 then [pfx ++ "Field \x27files\x27 is missing or empty"]
        else filesErrors pfx 0 files
    | _ => [pfx ++ "Field \x27files\x27 is missing or empty"]) ++
  (if !truthy (getF entry "category") then [pfx ++ "Missing required field: category"]
   else if !includesCategory cats (getF entry "category") then
    [pfx ++ "Invalid category \x27" ++ jsToString (getF entry "category") ++ "\x27"]
   else [])

/-- Specification-side reading of path safety: the string is free of the
substrings `..`, `\` and `~`. -/
def SpecSafePath (s : String) : Prop :=
  ¬ "..".data <:+: s.data ∧ ¬ "\\".data <:+: s.data ∧ ¬ "~".data <:+: s.data

/-- Specification-side reading of a well-formed `files` element: an object
with truthy `source` and `destination` keys, both free of unsafe characters. -/
def SpecFileOk (f : JVal) : Prop :=
  (∃ fields, f = JVal.obj fields) ∧
  truthy (getF f "source") = true ∧ truthy (getF f "destination") = true ∧
  SpecSafePath (jsToString (getF f "source")) ∧
  SpecSafePath (jsToString (getF f "destination"))

/-- Specification-side reading of a valid descriptor entry: truthy `name` and
`description`, a non-empty `files` array of well-formed elements, and a truthy
`category` that is a member of the loaded category list. -/
def SpecValidEntry (cats : List String) (entry : JVal) : Prop :=
  truthy (getF entry "name") = true ∧
  truthy (getF entry "description") = true ∧
  (∃ fs, getF entry "files" = JVal.arr fs ∧ fs ≠ [] ∧ ∀ f ∈ fs, SpecFileOk f) ∧
  truthy (getF entry "category") = true ∧
  (∃ c, getF entry "category" = JVal.str c ∧ c ∈ cats)

/-- Line terminators of a JavaScript regular expression: the `.` atom matches
every character except these four. -/
def isLineTerm (c : Char) : Bool :=
  c == '\n' || c == '\r' || c == ' ' || c == ' '

/-- ASCII lower-casing, the effect of the regex `i` flag on the ASCII
characters that repository full names are made of. -/
def lowerC (c : Char) : Char :=
  if 'A' ≤ c ∧ c ≤ 'Z' then Char.ofNat (c.toNat + 32) else c

/-- Splitting a character list at every occurrence of `sep`, as JavaScript
`String.prototype.split` does: `n` separators yield `n + 1` pieces. -/
def splitChar (sep : Char) : List Char → List (List Char)
  | [] => [[]]
  | c :: rest =>
      let r := splitChar sep rest
      if c == sep then [] :: r
      else
        match r with
        | [] => [[c]]
        | p :: ps => (c :: p) :: ps

/-- Literal pieces of a wildcard pattern: `pattern.split("*")`, case-folded.
`escapeRegex` makes every piece character literal in the built regex, so a
piece contributes itself and nothing else. -/
def patternPieces (pattern : String) : List (List Char) :=
  (splitChar '*' pattern.data).map (List.map lowerC)

/-- Gap characters accepted by the `.*` joins of the built regex: every
character except a line terminator. -/
def noLT (l : List Char) : Bool :=
  l.all (fun c => !isLineTerm c)

/-- Matcher for the tail of the regex `^p₁.*p₂.*…pₙ$`: given the pieces after
`p₁`, does `t` decompose as gap, piece, gap, piece, …, with the final piece
ending the text and every gap free of line terminators? -/
def matchGaps : List (List Char) → List Char → Bool
  | [], t => t.isEmpty
  | p :: ps, t =>
      (List.range (t.length + 1)).any (fun i =>
        noLT (t.take i) && ((t.drop i).take p.length == p) &&
          matchGaps ps ((t.drop i).drop p.length))

/-- Source `wildcardMatch(pattern, text)`: the test of the regex built from
the case-folded literal pieces of `pattern` joined by `.*`, anchored on both
sides. -/
def wildcardMatch (pattern text : String) : Bool :=
  match patternPieces pattern with
  | [] => text.data.isEmpty
  | p :: ps =>
      p.isPrefixOf (text.data.map lowerC) &&
        matchGaps ps ((text.data.map lowerC).drop p.length)

/-- Source `isBlocked(fullName)`: some blocklist pattern matches. -/
def isBlocked (blocklist : List String) (fullName : String) : Bool :=
  blocklist.any (fun pattern => wildcardMatch pattern fullName)

/-- Declarative reading of the `.*`-joined tail: `t` is gap, piece, gap,
piece, …, the gaps free of line terminators. -/
def GapsSem : List (List Char) → List Char → Prop
  | [], t => t = []
  | p :: ps, t =>
      ∃ g t2, t = g ++ p ++ t2 ∧ (∀ c ∈ g, isLineTerm c = false) ∧ GapsSem ps t2

/-- Declarative reading of `wildcardMatch`: after case folding, the text is
the first pattern piece, then alternating line-terminator-free gaps and the
remaining pieces, ending with the last piece. -/
def GlobSem (pattern text : String) : Prop :=
  match patternPieces pattern with
  | [] => text.data = []
  | p :: ps => ∃ t2, text.data.map lowerC = p ++ t2 ∧ GapsSem ps t2

/-- Reading of the claim's wildcard semantics in which `*` may match any
character whatsoever, line terminators included. -/
def GapsSemAny : List (List Char) → List Char → Prop
  | [], t => t = []
  | p :: ps, t => ∃ g t2, t = g ++ p ++ t2 ∧ GapsSemAny ps t2

/-- Claim-side wildcard semantics with unrestricted gaps. -/
def GlobSemAny (pattern text : String) : Prop :=
  match patternPieces pattern with
  | [] => text.data = []
  | p :: ps => ∃ t2, text.data.map lowerC = p ++ t2 ∧ GapsSemAny ps t2

/-- Fields of a search result used by `main`: `full_name`, `owner.login` and
`name`. -/
structure Repo where
  full_name : String
  owner : String
  name : String
deriving Repr, DecidableEq

/-- Fields of the latest-release response used by `main`: `tag_name`, `name`
(stored as `version`) and `published_at`. -/
structure Release where
  tag_name : JVal
  relName : JVal
  published_at : JVal
deriving Repr

/-- Outcome of fetching one repository: either some step of the release
request, the descriptor request or its JSON parse threw (`fail` carries the
interpolated `err.response?.status || err.message` text), or both requests
succeeded and yielded the latest release and the parsed descriptor. -/
inductive FetchOutcome where
  | fail : String → FetchOutcome
  | ok : Release → JVal → FetchOutcome

/-- Repository paired with the outcome its fetches would produce. -/
structure RepoFetch where
  repo : Repo
  outcome : FetchOutcome

/-- Saved application: the full metadata object written by
`saveMetadataFile`, the returned path, and the trimmed record pushed into
`categorizedResults` (spread of the metadata with `metadata_file` added and
`tag`, `published_at`, `files` overwritten by `undefined`). -/
structure Saved where
  meta : JVal
  metaPath : String
  record : JVal
deriving Repr

/-- JavaScript object spread `{...base, k₁: v₁, …}`: the base object fields
in order, each listed key overwritten in place or appended. -/
def spreadSet (base : JVal) (updates : List (String × JVal)) : JVal :=
  .obj (updates.foldl (fun fields kv => setF fields kv.1 kv.2)
    (match base with | .obj fields => fields | _ => []))

/-- Source `saveMetadataFile`, its successful path computation: `path.join`
accepts only string segments, so the path exists exactly when the metadata
object's `owner`, `repo` and `name` fields are all strings; on any other
metadata the call throws a TypeError instead (`saveThrows`), so the loops
consult `saveThrows` before this function and the catch-all branch is never
reached by the pipeline. -/
def metadataFilePath (m : JVal) : String :=
  match getF m "owner", getF m "repo", getF m "name" with
  | .str o, .str r, .str n =>
      "repositories/" ++ o ++ "/" ++ r ++ "/" ++ n ++ "/metadata.json"
  | _, _, _ => ""

/-- Record pushed into `categorizedResults` for a metadata object `m`. -/
def stripRecord (m : JVal) : JVal :=
  spreadSet m [("metadata_file", .str (metadataFilePath m)), ("tag", .undefined),
    ("published_at", .undefined), ("files", .undefined)]

/-- Saving a metadata object: file write plus trimmed record. -/
def mkSavedOf (m : JVal) : Saved :=
  ⟨m, metadataFilePath m, stripRecord m⟩

/-- Source `fullMetadata` built for a valid descriptor entry (key order as in
the object literal of `main`). -/
def fullMetadata (r : Repo) (rel : Release) (entry : JVal) : JVal :=
  .obj [("name", getF entry "name"), ("category", getF entry "category"),
    ("description", getF entry "description"), ("version", rel.relName),
    ("tag", rel.tag_name), ("published_at", rel.published_at),
    ("owner", .str r.owner), ("repo", .str r.name),
    ("files", getF entry "files")]

/-- Saved application produced from a validated descriptor entry. -/
def mkSavedEntry (r : Repo) (rel : Release) (entry : JVal) : Saved :=
  mkSavedOf (fullMetadata r rel entry)

/-- Category grouping `{ category: [apps] }` with keys in insertion order. -/
abbrev CatResults := List (String × List Saved)

/-- JavaScript `if (!categorizedResults[category]) categorizedResults[category] = [];
categorizedResults[category].push(app)`: append to the category's list, the
key created at the end on first use. -/
def pushCat : CatResults → String → Saved → CatResults
  | [], c, s => [(c, [s])]
  | (k, l) :: rest, c, s =>
      if k = c then (k, l ++ [s]) :: rest else (k, l) :: pushCat rest c s

/-- Creation of an empty category list when the key is absent. -/
def ensureCat : CatResults → String → CatResults
  | [], c => [(c, [])]
  | (k, l) :: rest, c =>
      if k = c then (k, l) :: rest else (k, l) :: ensureCat rest c

/-- Accumulator of `main`: `categorizedResults`, `errors` and
`blocklistHits`, in push order. -/
structure St where
  results : CatResults
  errors : List String
  blocklistHits : List String
deriving Repr

/-- Message recorded for a blocked repository. -/
def blockedMsg (fullName : String) : String :=
  "🛑 Skipping " ++ fullName ++ ": Blocked by blocklist.json"

/-- Message recorded when a repository's fetches or descriptor parse throw. -/
def fetchErrMsg (fullName msg : String) : String :=
  "⚠️  Error fetching metadata.json for " ++ fullName ++ ": " ++ msg

/-- Message recorded for one validation error of one entry. -/
def entryErrMsg (fullName e : String) : String :=
  "⚠️  " ++ fullName ++ ": " ++ e

/-- Object key under which a validated entry is pushed:
`categorizedResults[entry.category]` coerces the category to a string. -/
def savedKey (entry : JVal) : String :=
  jsToString (getF entry "category")

/-- JavaScript string test, the type check `path.join` performs on every
segment. -/
def isStr : JVal → Bool
  | .str _ => true
  | _ => false

/-- Does `saveMetadataFile(m)` throw?  `path.join("repositories",
metadata.owner, metadata.repo, metadata.name)` raises a TypeError unless
every segment is a string (a missing field reads as `undefined`). -/
def saveThrows (m : JVal) : Bool :=
  !(isStr (getF m "owner") && isStr (getF m "repo") && isStr (getF m "name"))

/-- Does the JS `validateMetadata` throw instead of returning?  Reading
`entry.name` on a `null` or `undefined` entry throws; otherwise a `null`
element of a non-empty `files` array passes the `typeof` test and the read
`file.source` on it throws.  Every other value boxes and reads as
`undefined`, yielding messages, not a throw. -/
def validateThrows (entry : JVal) : Bool :=
  match entry with
  | .null => true
  | .undefined => true
  | _ =>
      match getF entry "files" with
      | .arr fs => fs.any (fun f => match f with | .null => true | _ => false)
      | _ => false

/-- Message interpolated by the per-repository catch for a TypeError raised
while processing entries: `err.response?.status` is `undefined` for a
TypeError, so `err.message` is interpolated.  The engine's wording is not
fixed by the source; the model keeps it as one abstract constant. -/
def typeErrorText : String := "TypeError"

/-- Per-entry loop of `main` over the descriptor's entries with its running
index: validate, then either record the prefixed messages or save the entry
and push its record.  The Boolean is true when a TypeError aborted the loop
— a throwing read inside `validateMetadata`, or a save whose `path.join`
rejects a non-string `name` — in which case the remaining entries are not
processed and the state reached so far is kept. -/
def processEntries (cats : List String) (r : Repo) (rel : Release)
    (isArr : Bool) : Nat → List JVal → St → St × Bool
  | _, [], st => (st, false)
  | i, e :: rest, st =>
      if validateThrows e then (st, true)
      else
        let errs := validateMetadata cats e (if isArr then some i else none)
        if errs = [] then
          if saveThrows (fullMetadata r rel e) then (st, true)
          else processEntries cats r rel isArr (i + 1) rest
            { st with results := pushCat st.results (savedKey e) (mkSavedEntry r rel e) }
        else processEntries cats r rel isArr (i + 1) rest
          { st with errors := st.errors ++ errs.map (entryErrMsg r.full_name) }

/-- Entry loop applied to a successfully fetched descriptor: an array is the
entry list (indexed messages), anything else a single entry. -/
def entriesRes (cats : List String) (r : Repo) (rel : Release) (raw : JVal)
    (st : St) : St × Bool :=
  match raw with
  | .arr es => processEntries cats r rel true 0 es st
  | v => processEntries cats r rel false 0 [v] st

/-- Processing of a successfully fetched descriptor.  A TypeError from the
loop propagates to the per-repository catch, which records one fetch-style
error; the entries already processed keep their effects. -/
def processOk (cats : List String) (r : Repo) (rel : Release) (raw : JVal)
    (st : St) : St :=
  let res := entriesRes cats r rel raw st
  if res.2 then
    { res.1 with errors := res.1.errors ++ [fetchErrMsg r.full_name typeErrorText] }
  else res.1

/-- Body of the repository loop of `main`: blocklist check first, then the
fetches, then validation and aggregation. -/
def processRepo (bl cats : List String) (st : St) (rf : RepoFetch) : St :=
  if isBlocked bl rf.repo.full_name then
    { st with blocklistHits := st.blocklistHits ++ [blockedMsg rf.repo.full_name] }
  else
    match rf.outcome with
    | .fail msg => { st with errors := st.errors ++ [fetchErrMsg rf.repo.full_name msg] }
    | .ok rel raw => processOk cats rf.repo rel raw st

/-- Repository loop of `main`. -/
def processRepos (bl cats : List String) (st : St) (rfs : List RepoFetch) : St :=
  rfs.foldl (processRepo bl cats) st

/-- Category lookup, first binding wins (JS object keys are unique, so the
first binding is the only one). -/
def lookupCat : CatResults → String → Option (List Saved)
  | [], _ => none
  | (k, l) :: rest, c => if k = c then some l else lookupCat rest c

/-- Deduplication test of the manual merge: strict equality of the `owner`,
`repo` and `name` fields. -/
def sameApp (a app : JVal) : Bool :=
  jsStrictEq (getF a "owner") (getF app "owner") &&
    jsStrictEq (getF a "repo") (getF app "repo") &&
    jsStrictEq (getF a "name") (getF app "name")

/-- Does the per-app loop throw on this manual app before anything is
appended?  For a `null` or `undefined` app either the deduplication callback
reads `app.owner` on it or, when the category list is empty, the save reads
`metadata.owner` on it; both raise a TypeError. -/
def appReadThrows : JVal → Bool
  | .null => true
  | .undefined => true
  | _ => false

/-- Per-category loop of the manual merge: a throwing app read or a failing
save raises a TypeError (flag true, remaining apps unprocessed); an app
matching some app already in the list on all three keys is skipped without
being saved; every other app is saved and its record appended. -/
def mergeApps : List Saved → List JVal → List Saved × Bool
  | cur, [] => (cur, false)
  | cur, app :: rest =>
      if appReadThrows app then (cur, true)
      else if cur.any (fun s => sameApp s.record app) then mergeApps cur rest
      else if saveThrows app then (cur, true)
      else mergeApps (cur ++ [mkSavedOf app]) rest

/-- Source merge of `releases_manual.json` over its entries in order: each
category key is created first, then its apps merged; a TypeError reaches the
surrounding catch and the rest of the file is ignored, the merges made so
far (the current category's partial list included) persisting. -/
def mergeManual (rs : CatResults) : List (String × List JVal) → CatResults
  | [] => rs
  | (c, apps) :: rest =>
      let base := ensureCat rs c
      let res := mergeApps ((lookupCat base c).getD []) apps
      let rs2 := base.map (fun p => if p.1 = c then (p.1, res.1) else p)
      if res.2 then rs2 else mergeManual rs2 rest

/-- Name a record is sorted by: `a.name.localeCompare(b.name)` coerces the
field to a string. -/
def recName (s : Saved) : String :=
  jsToString (getF s.record "name")

/-- Source sort phase: each category's list sorted by record name with the
`localeCompare`-induced order `nameLe`, then the keys sorted and the object
rebuilt in sorted key order. -/
def sortResults (nameLe : String → String → Bool) (rs : CatResults) : CatResults :=
  let sorted := rs.map (fun p =>
    (p.1, p.2.mergeSort (fun a b => nameLe (recName a) (recName b))))
  ((sorted.map Prod.fst).mergeSort (fun a b => decide (a ≤ b))).map
    (fun c => (c, (lookupCat sorted c).getD []))

/-- Inputs of one run of `main` after the search phase: the loaded blocklist
and category list, the run mode, each found repository with its fetch
outcome, and the parsed `releases_manual.json` when the file exists and
parses. -/
structure RunInput where
  blocklist : List String
  cats : List String
  isManualRun : Bool
  repos : List RepoFetch
  manual : Option (List (String × List JVal))

/-- State of `main` after the repository loop. -/
def runCollect (inp : RunInput) : St :=
  processRepos inp.blocklist inp.cats ⟨[], [], []⟩ inp.repos

/-- Categorized results after the manual merge. -/
def runMerged (inp : RunInput) : CatResults :=
  match inp.manual with
  | some m => mergeManual (runCollect inp).results m
  | none => (runCollect inp).results

/-- The persisted index `releases.json`: categorized results after merge and
the two sorts. -/
def runFinal (nameLe : String → String → Bool) (inp : RunInput) : CatResults :=
  sortResults nameLe (runMerged inp)

/-- Lines of the written `ERRORS.md`.  The source pushes each multi-line
block pre-joined with `"\n"` into `sections` and then joins `sections` with
`"\n"`; this function lists the same lines individually, so the written file
is exactly these lines joined by `"\n"`. -/
def errorsReportLines (isManualRun : Bool) (errors blocklistHits : List String) :
    List String :=
  ["# ❗ Error Report", ""] ++
  (if errors = [] ∧ (isManualRun = false ∨ blocklistHits = []) then
    ["✅ No errors or warnings detected"]
  else
    (if errors = [] then []
     else ["### ⚠️ " ++ toString errors.length ++ " Metadata / Processing Issues"] ++
       errors.map (fun e => "- " ++ e) ++ [""]) ++
    (if blocklistHits = [] ∨ isManualRun = false then []
     else ["### 🛑 " ++ toString blocklistHits.length ++ " Blocked Repositories"] ++
       blocklistHits.map (fun e => "- " ++ e)))

/-- Result of the paginated search loop: accumulated items, recorded errors,
and whether the loop exited by its own break (`false` only when the fuel ran
out before a short or failing page). -/
structure SearchOutcome where
  repos : List Repo
  errors : List String
  finished : Bool
deriving Repr

/-- Source page size of the repository search. -/
def perPage : Nat := 50

/-- Message recorded when a search page request fails. -/
def searchErrMsg (page : Nat) (msg : String) : String :=
  "❌ Failed to search repositories (page " ++ toString page ++ "): " ++ msg

/-- Source search loop: accumulate each page's items, continue exactly while
a page returns a full `perPage` items, stop on a short page, stop and record
the error on a failed request.  `pages` maps a page number to its response;
`fuel` bounds the iterations of the shallow embedding. -/
def searchRepos (pages : Nat → Except String (List Repo)) :
    Nat → Nat → List Repo → List String → SearchOutcome
  | 0, _, acc, errs => ⟨acc, errs, false⟩
  | fuel + 1, page, acc, errs =>
      match pages page with
      | .error msg => ⟨acc, errs ++ [searchErrMsg page msg], true⟩
      | .ok items =>
          if items.length < perPage then ⟨acc ++ items, errs, true⟩
          else searchRepos pages fuel (page + 1) (acc ++ items) errs

/-- The whole of `main` up to the repository loop: search from page 1, then
process every repository found, the search errors already recorded.  `f`
gives each repository's fetch outcome. -/
def searchThenProcess (pages : Nat → Except String (List Repo)) (fuel : Nat)
    (f : Repo → FetchOutcome) (bl cats : List String) : St :=
  let s := searchRepos pages fuel 1 [] []
  processRepos bl cats ⟨[], s.errors, []⟩ (s.repos.map (fun r => ⟨r, f r⟩))

/-- Items of `n` consecutive search pages starting at page `p`, concatenated
in page order. -/
def pageItems (itemss : Nat → List Repo) (p : Nat) : Nat → List Repo
  | 0 => []
  | n + 1 => itemss p ++ pageItems itemss (p + 1) n

/-- Category key and saved application of every entry of a descriptor array
that passes validation, in array order, with the array index each entry was
validated under. -/
def validRecords (cats : List String) (r : Repo) (rel : Release) :
    Nat → List JVal → List (String × Saved)
  | _, [] => []
  | i, e :: rest =>
      if validateMetadata cats e (some i) = [] then
        (savedKey e, mkSavedEntry r rel e) :: validRecords cats r rel (i + 1) rest
      else validRecords cats r rel (i + 1) rest

/-- Prefixed messages of every entry of a descriptor array that fails
validation, in array and push order (a passing entry contributes none). -/
def invalidMsgs (cats : List String) (fullName : String) :
    Nat → List JVal → List String
  | _, [] => []
  | i, e :: rest =>
      (validateMetadata cats e (some i)).map (entryErrMsg fullName) ++
        invalidMsgs cats fullName (i + 1) rest

/-- Pushing a batch of saved applications under their keys, in order. -/
def pushAll (rs : CatResults) : List (String × Saved) → CatResults
  | [] => rs
  | (c, s) :: rest => pushAll (pushCat rs c s) rest

/-- Claim-side reading of the manual merge for one category: walk the listed
apps in order, appending an app exactly when no app already present in the
category (the search-phase apps together with the manual apps appended so
far) matches it on `owner`, `repo` and `name`. -/
def specKeptApps (cur : List Saved) : List JVal → List JVal
  | [] => []
  | app :: rest =>
      if ∃ s ∈ cur, sameApp s.record app = true then specKeptApps cur rest
      else app :: specKeptApps (cur ++ [mkSavedOf app]) rest

/-- Path safety of a declared file list: every element's `source` and
`destination` coerce to strings free of `..`, `\` and `~` (no list, no
declared files, nothing to check). -/
def fileListSafe : JVal → Bool
  | .arr fs => fs.all (fun f => !hasUnsafePath (jsToString (getF f "source")) &&
      !hasUnsafePath (jsToString (getF f "destination")))
  | _ => true

/-- Path safety of a saved application's persisted metadata. -/
def savedFilesSafe (s : Saved) : Bool :=
  fileListSafe (getF s.meta "files")

/-- Pointwise property of every saved application of every category, the
property allowed to mention the category key. -/
def ResultsAllK (P : String → Saved → Prop) (rs : CatResults) : Prop :=
  ∀ p ∈ rs, ∀ s ∈ p.2, P p.1 s

/-- Run with no search results and a manual overrides file whose single app
declares a `..`/`~` file list: the pipeline never path-checks it. -/
def cxManualUnsafe : RunInput :=
  ⟨[], [], false, [],
   some [("tools",
     [.obj [("name", .str "x"), ("owner", .str "o"), ("repo", .str "r"),
       ("files", .arr [.obj [("source", .str "../../etc/passwd"),
         ("destination", .str "~/boot")]])]])]⟩

/-- Run with one valid repository descriptor entry and no manual file. -/
def wRepoValid : RunInput :=
  ⟨[], ["tools"], false,
   [⟨⟨"o/r", "o", "r"⟩, .ok ⟨.str "v1", .str "Release 1", .str "t"⟩
     (.obj [("name", .str "app"), ("description", .str "d"),
       ("files", .arr [.obj [("source", .str "app.bin"),
         ("destination", .str "app.bin")]]),
       ("category", .str "tools")])⟩], none⟩

/-- Descriptor entry of `wRepoValid`. -/
def wEntryValid : JVal :=
  .obj [("name", .str "app"), ("description", .str "d"),
    ("files", .arr [.obj [("source", .str "app.bin"),
      ("destination", .str "app.bin")]]),
    ("category", .str "tools")]

/-- Descriptor entry that passes validation although its `name` is the
number `5` (the validator only requires truthiness): saving it makes
`path.join` throw. -/
def cxEntryNumName : JVal :=
  .obj [("name", .num 5), ("description", .str "d"),
    ("files", .arr [.obj [("source", .str "a"), ("destination", .str "b")]]),
    ("category", .str "tools")]

/-- Fully valid descriptor entry with a string `name`, listed after
`cxEntryNumName` in the counterexample array. -/
def cxEntryValidSib : JVal :=
  .obj [("name", .str "app"), ("description", .str "d"),
    ("files", .arr [.obj [("source", .str "a"), ("destination", .str "b")]]),
    ("category", .str "tools")]

/-- Run with no search results and a manual overrides file that lists under
`games` an app whose own `category` field says `tools`; the app's `name`,
`owner` and `repo` are strings, so its save succeeds and it is merged. -/
def cxManualMiscat : RunInput :=
  ⟨[], [], false, [],
   some [("games", [.obj [("name", .str "x"), ("owner", .str "o"),
     ("repo", .str "r"), ("category", .str "tools")]])]⟩

example : validateMetadata ["tools"]
    (.obj [("name", .str "x"), ("description", .str "d"),
           ("files", .arr [.obj [("source", .str "a.bin"), ("destination", .str "b")]]),
           ("category", .str "tools")]) none = [] := by decide

example : validateMetadata ["tools"]
    (.obj [("description", .str "d"),
           ("files", .arr [.obj [("source", .str "../a"), ("destination", .str "b")]]),
           ("category", .str "games")]) (some 2) =
    ["[entry 2] Missing required field: name",
     "[entry 2] files[0].source contains invalid or unsafe characters",
     "[entry 2] Invalid category \x27games\x27"] := by decide

theorem containsSeq_iff_infix (pat l : List Char) :
    containsSeq pat l = true ↔ pat <:+: l := by
  induction l with
  | nil => simp [containsSeq, List.isEmpty_iff, List.infix_nil]
  | cons c rest ih =>
      simp [containsSeq, List.isPrefixOf_iff_prefix, List.infix_cons_iff, ih]

theorem hasUnsafePath_false_iff (s : String) :
    hasUnsafePath s = false ↔ SpecSafePath s := by
  simp [hasUnsafePath, SpecSafePath, ← containsSeq_iff_infix, and_assoc]

theorem fileErrors_eq_nil (pfx : String) (i : Nat) (f : JVal) :
    fileErrors pfx i f = [] ↔ SpecFileOk f := by
  cases f with
  | obj fields =>
      unfold fileErrors SpecFileOk
      cases hs : truthy (getF (JVal.obj fields) "source") with
      | false => simp [typeofIsObject, hs]
      | true =>
          cases hd : truthy (getF (JVal.obj fields) "destination") with
          | false => simp [typeofIsObject, hs, hd]
          | true =>
              simp [typeofIsObject, hs, hd, List.append_eq_nil,
                ← hasUnsafePath_false_iff]
  | undefined => simp [fileErrors, typeofIsObject, SpecFileOk]
  | null => simp [fileErrors, typeofIsObject, getF, truthy, SpecFileOk]
  | bool b => simp [fileErrors, typeofIsObject, SpecFileOk]
  | num n => simp [fileErrors, typeofIsObject, SpecFileOk]
  | str s => simp [fileErrors, typeofIsObject, SpecFileOk]
  | arr xs => simp [fileErrors, typeofIsObject, getF, truthy, SpecFileOk]

theorem filesErrors_eq_nil (pfx : String) (i : Nat) (fs : List JVal) :
    filesErrors pfx i fs = [] ↔ ∀ f ∈ fs, SpecFileOk f := by
  induction fs generalizing i with
  | nil => simp [filesErrors]
  | cons f rest ih =>
      simp [filesErrors, List.append_eq_nil, fileErrors_eq_nil, ih]

lemma missGuard_iff (b : Bool) (m : String) :
    ((if !b then [m] else []) = []) ↔ b = true := by
  cases b <;> simp

lemma catBlock_iff (cats : List String) (v : JVal) (m1 m2 : String) :
    ((if !truthy v then [m1] else if !includesCategory cats v then [m2] else []) = []) ↔
      (truthy v = true ∧ ∃ c, v = JVal.str c ∧ c ∈ cats) := by
  cases ht : truthy v with
  | false => simp [ht]
  | true =>
      cases hi : includesCategory cats v with
      | false =>
          simp [ht, hi]
          rintro c rfl hc
          simp [includesCategory] at hi
          exact hi hc
      | true =>
          simp only [ht, hi, Bool.not_true, Bool.false_eq_true, if_false, true_and]
          cases v <;> simp [includesCategory] at hi ⊢
          exact hi

lemma filesBlock_iff (pfx m : String) (v : JVal) :
    ((match v with
      | JVal.arr files =>
          if (files.length == 0) = true then [m] else filesErrors pfx 0 files
      | _ => [m]) = []) ↔
      (∃ fs, v = JVal.arr fs ∧ fs ≠ [] ∧ ∀ f ∈ fs, SpecFileOk f) := by
  cases v with
  | arr fs =>
      cases fs with
      | nil => simp
      | cons f rest => simp [filesErrors_eq_nil]
  | undefined => simp
  | null => simp
  | bool b => simp
  | num n => simp
  | str s => simp
  | obj fields => simp

/-- Characterization of `validateMetadata` returning no error: the entry is
valid in the declarative sense of `SpecValidEntry`. -/
theorem validateMetadata_nil_iff (cats : List String) (entry : JVal)
    (index : Option Nat) :
    validateMetadata cats entry index = [] ↔ SpecValidEntry cats entry := by
  unfold validateMetadata
  simp only [List.append_eq_nil]
  rw [missGuard_iff, missGuard_iff, filesBlock_iff, catBlock_iff]
  unfold SpecValidEntry
  tauto

theorem matchGaps_iff (ps : List (List Char)) (t : List Char) :
    matchGaps ps t = true ↔ GapsSem ps t := by
  induction ps generalizing t with
  | nil => simp [matchGaps, GapsSem, List.isEmpty_iff]
  | cons p rest ih =>
      unfold matchGaps GapsSem
      rw [List.any_eq_true]
      constructor
      · rintro ⟨i, -, hi⟩
        rw [Bool.and_eq_true, Bool.and_eq_true] at hi
        obtain ⟨⟨hg, hp⟩, hm⟩ := hi
        refine ⟨t.take i, (t.drop i).drop p.length, ?_, ?_, (ih _).1 hm⟩
        · have hdrop : t.drop i = p ++ (t.drop i).drop p.length := by
            conv_lhs => rw [← List.take_append_drop p.length (t.drop i)]
            rw [beq_iff_eq] at hp
            rw [hp]
          conv_lhs => rw [← List.take_append_drop i t]
          rw [List.append_assoc, ← hdrop]
        · intro c hc
          simp [noLT, List.all_eq_true] at hg
          exact hg c hc
      · rintro ⟨g, t2, rfl, hg, hsem⟩
        refine ⟨g.length, ?_, ?_⟩
        · simp [List.mem_range]
          omega
        · rw [Bool.and_eq_true, Bool.and_eq_true]
          have htake : (g ++ p ++ t2).take g.length = g := by
            rw [List.append_assoc, List.take_left]
          have hdrop : (g ++ p ++ t2).drop g.length = p ++ t2 := by
            rw [List.append_assoc, List.drop_left]
          refine ⟨⟨?_, ?_⟩, ?_⟩
          · rw [htake]
            simp [noLT, List.all_eq_true]
            intro c hc
            exact hg c hc
          · rw [hdrop, List.take_left]
            simp
          · rw [hdrop, List.drop_left]
            exact (ih _).2 hsem

theorem wildcardMatch_iff (pattern text : String) :
    wildcardMatch pattern text = true ↔ GlobSem pattern text := by
  unfold wildcardMatch GlobSem
  cases patternPieces pattern with
  | nil => simp [List.isEmpty_iff]
  | cons p ps =>
      rw [Bool.and_eq_true, List.isPrefixOf_iff_prefix]
      constructor
      · rintro ⟨⟨t2, ht⟩, hm⟩
        refine ⟨t2, ht.symm, ?_⟩
        rw [← ht, List.drop_left] at hm
        exact (matchGaps_iff _ _).1 hm
      · rintro ⟨t2, ht, hsem⟩
        rw [ht]
        exact ⟨⟨t2, rfl⟩, by rw [List.drop_left]; exact (matchGaps_iff _ _).2 hsem⟩

/-- C1.  `validateMetadata` returns an empty error list if and only if the
entry has a truthy `name` and `description`, a `files` field that is a
non-empty array whose every element is an object with truthy `source` and
`destination` keys both free of unsafe characters, and a truthy `category`
that is a member of the loaded category list; otherwise the violated rules
have each pushed their message and the list is non-empty. -/
theorem claim1_validateMetadata_iff (cats : List String) (entry : JVal)
    (index : Option Nat) :
    validateMetadata cats entry index = [] ↔ SpecValidEntry cats entry :=
  validateMetadata_nil_iff cats entry index

/-- C9 (amended).  A repository is skipped as blocked exactly when some
blocklist pattern matches its full name, where matching is case-insensitive,
`*` matches any possibly empty sequence of non-line-terminator characters,
every other pattern character is literal, and the pattern must cover the
whole name; a blocked repository is charged one blocklist hit and contributes
nothing else, its fetch outcome never examined. -/
theorem claim9_blocklist_semantics :
    (∀ bl fn, isBlocked bl fn = true ↔ ∃ pat ∈ bl, GlobSem pat fn) ∧
    (∀ bl cats st r o o2, isBlocked bl r.full_name = true →
      processRepo bl cats st ⟨r, o⟩ = processRepo bl cats st ⟨r, o2⟩ ∧
      (processRepo bl cats st ⟨r, o⟩).results = st.results ∧
      (processRepo bl cats st ⟨r, o⟩).errors = st.errors ∧
      (processRepo bl cats st ⟨r, o⟩).blocklistHits =
        st.blocklistHits ++ [blockedMsg r.full_name]) := by
  constructor
  · intro bl fn
    unfold isBlocked
    rw [List.any_eq_true]
    constructor
    · rintro ⟨pat, hmem, hmatch⟩
      exact ⟨pat, hmem, (wildcardMatch_iff pat fn).1 hmatch⟩
    · rintro ⟨pat, hmem, hsem⟩
      exact ⟨pat, hmem, (wildcardMatch_iff pat fn).2 hsem⟩
  · intro bl cats st r o o2 hb
    simp [processRepo, hb]

/-- C9, counterexample to the claim as stated: with the pattern `a*b` and the
text `a` newline `b`, the claimed semantics (in which `*` matches any
sequence of characters) accepts, but `wildcardMatch` rejects, because the
`.*` of the built regex does not match a line terminator. -/
theorem claim9_counterexample :
    wildcardMatch "a*b" "a\nb" = false ∧ GlobSemAny "a*b" "a\nb" := by
  constructor
  · decide
  · have hp : patternPieces "a*b" = [['a'], ['b']] := by decide
    simp only [GlobSemAny, hp]
    refine ⟨['\n', 'b'], by decide, ?_⟩
    show GapsSemAny [['b']] ['\n', 'b']
    unfold GapsSemAny
    exact ⟨['\n'], [], by decide, rfl⟩

lemma searchRepos_skip_full (pages : Nat → Except String (List Repo))
    (itemss : Nat → List Repo) :
    ∀ (n p fuel : Nat) (acc : List Repo) (errs : List String),
      n < fuel →
      (∀ j, p ≤ j → j < p + n →
        pages j = Except.ok (itemss j) ∧ (itemss j).length = perPage) →
      searchRepos pages fuel p acc errs =
        searchRepos pages (fuel - n) (p + n) (acc ++ pageItems itemss p n) errs := by
  intro n
  induction n with
  | zero =>
      intro p fuel acc errs hf hfull
      simp [pageItems]
  | succ n ih =>
      intro p fuel acc errs hf hfull
      cases fuel with
      | zero => omega
      | succ f =>
          have hp := hfull p le_rfl (by omega)
          have hstep : searchRepos pages (f + 1) p acc errs =
              searchRepos pages f (p + 1) (acc ++ itemss p) errs := by
            conv_lhs => unfold searchRepos
            rw [hp.1]
            simp [hp.2]
          rw [hstep]
          rw [ih (p + 1) f (acc ++ itemss p) errs (by omega)
            (fun j hj1 hj2 => hfull j (by omega) (by omega))]
          have h1 : f - n = f + 1 - (n + 1) := by omega
          have h2 : p + 1 + n = p + (n + 1) := by omega
          rw [h1, h2]
          congr 1
          simp [pageItems, List.append_assoc]

/-- C6.  Repository discovery: starting at page 1 with page size 50, the
loop accumulates each page's items in order, requests the next page exactly
while a page returns a full 50 items, and stops on the first page that
returns fewer than 50 items or fails; a failure records one search error and
the repositories gathered so far are still processed. -/
theorem claim6_search_pagination (pages : Nat → Except String (List Repo))
    (itemss : Nat → List Repo) (k : Nat) (hk : 1 ≤ k)
    (hfull : ∀ j, 1 ≤ j → j < k →
      pages j = Except.ok (itemss j) ∧ (itemss j).length = perPage) :
    (∀ items, pages k = Except.ok items → items.length < perPage →
      ∀ fuel, k ≤ fuel →
        searchRepos pages fuel 1 [] [] =
          ⟨pageItems itemss 1 (k - 1) ++ items, [], true⟩) ∧
    (∀ msg, pages k = Except.error msg →
      ∀ fuel, k ≤ fuel →
        searchRepos pages fuel 1 [] [] =
          ⟨pageItems itemss 1 (k - 1), [searchErrMsg k msg], true⟩ ∧
        ∀ f bl cats, searchThenProcess pages fuel f bl cats =
          processRepos bl cats ⟨[], [searchErrMsg k msg], []⟩
            ((pageItems itemss 1 (k - 1)).map (fun r => ⟨r, f r⟩))) := by
  have hrun : ∀ fuel, k ≤ fuel →
      searchRepos pages fuel 1 [] [] =
        searchRepos pages (fuel - (k - 1)) k (pageItems itemss 1 (k - 1)) [] := by
    intro fuel hfuel
    have := searchRepos_skip_full pages itemss (k - 1) 1 fuel [] [] (by omega)
      (fun j hj1 hj2 => hfull j hj1 (by omega))
    rw [this]
    have h1 : 1 + (k - 1) = k := by omega
    rw [h1]
    simp
  constructor
  · intro items hok hshort fuel hfuel
    rw [hrun fuel hfuel]
    have hm : fuel - (k - 1) = (fuel - k) + 1 := by omega
    rw [hm]
    unfold searchRepos
    rw [hok]
    simp [hshort]
  · intro msg herr fuel hfuel
    have hres : searchRepos pages fuel 1 [] [] =
        ⟨pageItems itemss 1 (k - 1), [searchErrMsg k msg], true⟩ := by
      rw [hrun fuel hfuel]
      have hm : fuel - (k - 1) = (fuel - k) + 1 := by omega
      rw [hm]
      unfold searchRepos
      rw [herr]
      simp
    refine ⟨hres, ?_⟩
    intro f bl cats
    unfold searchThenProcess
    rw [hres]

theorem claim6_search_pagination_witness :
    searchRepos (fun _ => Except.error "boom") 3 1 [] [] =
      ⟨[], [searchErrMsg 1 "boom"], true⟩ ∧
    searchThenProcess (fun _ => Except.error "boom") 3
        (fun _ => FetchOutcome.fail "x") [] [] =
      processRepos [] [] ⟨[], [searchErrMsg 1 "boom"], []⟩ [] := by
  have h := (claim6_search_pagination (fun _ => Except.error "boom")
    (fun _ => []) 1 le_rfl (fun j hj1 hj2 => absurd hj2 (by omega))).2
    "boom" rfl 3 (by omega)
  exact ⟨h.1, h.2 (fun _ => FetchOutcome.fail "x") [] []⟩

lemma processEntries_flag_congr (cats : List String) (r : Repo) (rel : Release)
    (isArr : Bool) :
    ∀ (es : List JVal) (i : Nat) (st st2 : St),
      (processEntries cats r rel isArr i es st).2 =
        (processEntries cats r rel isArr i es st2).2 := by
  intro es
  induction es with
  | nil => intro i st st2; rfl
  | cons e rest ih =>
      intro i st st2
      by_cases hth : validateThrows e
      · simp [processEntries, hth]
      · by_cases hval : validateMetadata cats e (if isArr then some i else none) = []
        · by_cases hsv : saveThrows (fullMetadata r rel e)
          · simp [processEntries, hth, hval, hsv]
          · simp [processEntries, hth, hval, hsv]
            exact ih (i + 1) _ _
        · simp [processEntries, hth, hval]
          exact ih (i + 1) _ _

lemma processEntries_results_congr (cats : List String) (r : Repo)
    (rel : Release) (isArr : Bool) :
    ∀ (es : List JVal) (i : Nat) (st st2 : St), st.results = st2.results →
      ((processEntries cats r rel isArr i es st).1).results =
        ((processEntries cats r rel isArr i es st2).1).results := by
  intro es
  induction es with
  | nil => intro i st st2 h; exact h
  | cons e rest ih =>
      intro i st st2 h
      by_cases hth : validateThrows e
      · simpa [processEntries, hth] using h
      · by_cases hval : validateMetadata cats e (if isArr then some i else none) = []
        · by_cases hsv : saveThrows (fullMetadata r rel e)
          · simpa [processEntries, hth, hval, hsv] using h
          · simp [processEntries, hth, hval, hsv]
            exact ih (i + 1) _ _ (by simp [h])
        · simp [processEntries, hth, hval]
          exact ih (i + 1) _ _ (by simp [h])

lemma processEntries_hits (cats : List String) (r : Repo) (rel : Release)
    (isArr : Bool) :
    ∀ (es : List JVal) (i : Nat) (st : St),
      ((processEntries cats r rel isArr i es st).1).blocklistHits =
        st.blocklistHits := by
  intro es
  induction es with
  | nil => intro i st; rfl
  | cons e rest ih =>
      intro i st
      by_cases hth : validateThrows e
      · simp [processEntries, hth]
      · by_cases hval : validateMetadata cats e (if isArr then some i else none) = []
        · by_cases hsv : saveThrows (fullMetadata r rel e)
          · simp [processEntries, hth, hval, hsv]
          · simp [processEntries, hth, hval, hsv]
            exact ih (i + 1) _
        · simp [processEntries, hth, hval]
          exact ih (i + 1) _

lemma entriesRes_results_congr (cats : List String) (r : Repo) (rel : Release)
    (raw : JVal) (st st2 : St) (h : st.results = st2.results) :
    ((entriesRes cats r rel raw st).1).results =
      ((entriesRes cats r rel raw st2).1).results := by
  cases raw <;> exact processEntries_results_congr cats r rel _ _ _ _ _ h

lemma entriesRes_flag_congr (cats : List String) (r : Repo) (rel : Release)
    (raw : JVal) (st st2 : St) :
    (entriesRes cats r rel raw st).2 = (entriesRes cats r rel raw st2).2 := by
  cases raw <;> exact processEntries_flag_congr cats r rel _ _ _ _ _

lemma entriesRes_hits (cats : List String) (r : Repo) (rel : Release)
    (raw : JVal) (st : St) :
    ((entriesRes cats r rel raw st).1).blocklistHits = st.blocklistHits := by
  cases raw <;> exact processEntries_hits cats r rel _ _ _ _

lemma processOk_results (cats : List String) (r : Repo) (rel : Release)
    (raw : JVal) (st : St) :
    (processOk cats r rel raw st).results =
      ((entriesRes cats r rel raw st).1).results := by
  by_cases hf : (entriesRes cats r rel raw st).2 <;> simp [processOk, hf]

lemma processOk_hits (cats : List String) (r : Repo) (rel : Release)
    (raw : JVal) (st : St) :
    (processOk cats r rel raw st).blocklistHits = st.blocklistHits := by
  by_cases hf : (entriesRes cats r rel raw st).2 <;>
    simp [processOk, hf, entriesRes_hits]

lemma processRepo_results_congr (bl cats : List String) (rf : RepoFetch)
    (st st2 : St) (h : st.results = st2.results) :
    (processRepo bl cats st rf).results = (processRepo bl cats st2 rf).results := by
  unfold processRepo
  split
  · exact h
  · cases rf.outcome with
    | fail m => exact h
    | ok rel raw =>
        rw [processOk_results, processOk_results]
        exact entriesRes_results_congr _ _ _ _ _ _ h

lemma processRepo_hits (bl cats : List String) (st : St) (rf : RepoFetch) :
    (processRepo bl cats st rf).blocklistHits =
      st.blocklistHits ++
        (if isBlocked bl rf.repo.full_name then [blockedMsg rf.repo.full_name]
         else []) := by
  unfold processRepo
  split
  · rfl
  · cases rf.outcome with
    | fail m => simp
    | ok rel raw => simp [processOk_hits]

lemma processRepos_results_congr (bl cats : List String) :
    ∀ (rfs : List RepoFetch) (st st2 : St), st.results = st2.results →
      (processRepos bl cats st rfs).results =
        (processRepos bl cats st2 rfs).results := by
  intro rfs
  induction rfs with
  | nil => intro st st2 h; exact h
  | cons rf rest ih =>
      intro st st2 h
      exact ih _ _ (processRepo_results_congr bl cats rf st st2 h)

lemma processRepos_hits_congr (bl cats : List String) :
    ∀ (rfs : List RepoFetch) (st st2 : St),
      st.blocklistHits = st2.blocklistHits →
      (processRepos bl cats st rfs).blocklistHits =
        (processRepos bl cats st2 rfs).blocklistHits := by
  intro rfs
  induction rfs with
  | nil => intro st st2 h; exact h
  | cons rf rest ih =>
      intro st st2 h
      exact ih _ _ (by rw [processRepo_hits, processRepo_hits, h])

/-- C7.  A repository whose release fetch, descriptor fetch or descriptor
parse throws contributes exactly one recorded error message naming it and
nothing else: the categorized results and blocklist hits are the same as if
the repository were absent, and the processing of every other repository is
unaffected. -/
theorem claim7_fetch_failure_isolated (bl cats : List String) (st : St)
    (xs ys : List RepoFetch) (r : Repo) (m : String)
    (hb : isBlocked bl r.full_name = false) :
    (processRepos bl cats st (xs ++ ⟨r, .fail m⟩ :: ys) =
      (let st1 := processRepos bl cats st xs
       processRepos bl cats
         { st1 with errors := st1.errors ++ [fetchErrMsg r.full_name m] } ys)) ∧
    (processRepos bl cats st (xs ++ ⟨r, .fail m⟩ :: ys)).results =
      (processRepos bl cats st (xs ++ ys)).results ∧
    (processRepos bl cats st (xs ++ ⟨r, .fail m⟩ :: ys)).blocklistHits =
      (processRepos bl cats st (xs ++ ys)).blocklistHits ∧
    ∃ a b, fetchErrMsg r.full_name m = a ++ r.full_name ++ b := by
  have hsplit : processRepos bl cats st (xs ++ ⟨r, .fail m⟩ :: ys) =
      processRepos bl cats
        (processRepo bl cats (processRepos bl cats st xs) ⟨r, .fail m⟩) ys := by
    unfold processRepos
    rw [List.foldl_append]
    rfl
  have hsplit2 : processRepos bl cats st (xs ++ ys) =
      processRepos bl cats (processRepos bl cats st xs) ys := by
    unfold processRepos
    rw [List.foldl_append]
  have hfail : ∀ st1 : St, processRepo bl cats st1 ⟨r, .fail m⟩ =
      { st1 with errors := st1.errors ++ [fetchErrMsg r.full_name m] } := by
    intro st1
    simp [processRepo, hb]
  refine ⟨?_, ?_, ?_, ?_⟩
  · rw [hsplit, hfail]
  · rw [hsplit, hsplit2, hfail]
    exact processRepos_results_congr bl cats ys _ _ rfl
  · rw [hsplit, hsplit2, hfail]
    exact processRepos_hits_congr bl cats ys _ _ rfl
  · refine ⟨"⚠️  Error fetching metadata.json for ", ": " ++ m, ?_⟩
    unfold fetchErrMsg
    rw [String.append_assoc]

theorem claim7_fetch_failure_isolated_witness :
    ∃ a b, fetchErrMsg "o/r" "500" = a ++ "o/r" ++ b :=
  (claim7_fetch_failure_isolated [] [] ⟨[], [], []⟩ [] []
    ⟨"o/r", "o", "r"⟩ "500" rfl).2.2.2

lemma processEntries_arr_spec (cats : List String) (r : Repo) (rel : Release) :
    ∀ (es : List JVal) (i : Nat) (st : St),
      (∀ e ∈ es, validateThrows e = false ∧
        (SpecValidEntry cats e → saveThrows (fullMetadata r rel e) = false)) →
      processEntries cats r rel true i es st =
        ({ results := pushAll st.results (validRecords cats r rel i es),
           errors := st.errors ++ invalidMsgs cats r.full_name i es,
           blocklistHits := st.blocklistHits }, false) := by
  intro es
  induction es with
  | nil => intro i st _; simp [processEntries, validRecords, invalidMsgs, pushAll]
  | cons e rest ih =>
      intro i st hsafe
      obtain ⟨hth, hsv⟩ := hsafe e (List.mem_cons_self _ _)
      have htail := fun a ha => hsafe a (List.mem_cons_of_mem _ ha)
      by_cases hval : validateMetadata cats e (some i) = []
      · have hs2 : saveThrows (fullMetadata r rel e) = false :=
          hsv ((validateMetadata_nil_iff cats e (some i)).1 hval)
        simp only [processEntries, hth, Bool.false_eq_true, if_false, if_true,
          hval, hs2]
        rw [ih (i + 1) _ htail]
        simp [validRecords, invalidMsgs, pushAll, hval]
      · simp only [processEntries, hth, Bool.false_eq_true, if_false, if_true,
          hval]
        rw [ih (i + 1) _ htail]
        simp [validRecords, invalidMsgs, pushAll, hval]

/-- C10 (amended).  Provided no entry of the descriptor array makes the
validator or the save throw — no `null` entry or `null` files element, and
every validation-passing entry has a string `name` so that `path.join`
accepts it — the entries are validated independently: processing the array
pushes exactly the records of the entries that pass validation, in order and
under their own categories, and records exactly the prefixed messages of the
entries that fail; without the proviso a TypeError aborts the loop, the
per-repository catch records one fetch-style error, and the remaining
entries, valid ones included, are never saved. -/
theorem claim10_array_entries_independent (bl cats : List String) (r : Repo)
    (rel : Release) (es : List JVal) (st : St)
    (hb : isBlocked bl r.full_name = false)
    (hsafe : ∀ e ∈ es, validateThrows e = false ∧
      (SpecValidEntry cats e → saveThrows (fullMetadata r rel e) = false)) :
    processRepo bl cats st ⟨r, .ok rel (.arr es)⟩ =
      { results := pushAll st.results (validRecords cats r rel 0 es),
        errors := st.errors ++ invalidMsgs cats r.full_name 0 es,
        blocklistHits := st.blocklistHits } := by
  have h := processEntries_arr_spec cats r rel es 0 st hsafe
  simp [processRepo, hb, processOk, entriesRes, h]

theorem claim10_array_entries_independent_witness :
    processRepo [] ["tools"] ⟨[], [], []⟩
      ⟨⟨"o/r", "o", "r"⟩, .ok ⟨.str "v1", .str "Rel", .str "t"⟩
        (.arr [.obj [("name", .str "bad")],
               .obj [("name", .str "app"), ("description", .str "d"),
                 ("files", .arr [.obj [("source", .str "a"), ("destination", .str "b")]]),
                 ("category", .str "tools")]])⟩ =
      { results := pushAll []
          (validRecords ["tools"] ⟨"o/r", "o", "r"⟩ ⟨.str "v1", .str "Rel", .str "t"⟩ 0
            [.obj [("name", .str "bad")],
             .obj [("name", .str "app"), ("description", .str "d"),
               ("files", .arr [.obj [("source", .str "a"), ("destination", .str "b")]]),
               ("category", .str "tools")]]),
        errors := [] ++ invalidMsgs ["tools"] "o/r" 0
            [.obj [("name", .str "bad")],
             .obj [("name", .str "app"), ("description", .str "d"),
               ("files", .arr [.obj [("source", .str "a"), ("destination", .str "b")]]),
               ("category", .str "tools")]],
        blocklistHits := [] } :=
  claim10_array_entries_independent [] ["tools"] ⟨"o/r", "o", "r"⟩
    ⟨.str "v1", .str "Rel", .str "t"⟩ _ ⟨[], [], []⟩ rfl
    (by
      intro e he
      rcases List.mem_cons.1 he with rfl | he2
      · exact ⟨rfl, fun hv => rfl⟩
      · rcases List.mem_cons.1 he2 with rfl | he3
        · exact ⟨rfl, fun hv => rfl⟩
        · cases he3)

/-- C10, counterexample to the claim as stated: `cxEntryNumName` passes
validation (the validator only tests `name` for truthiness) but its numeric
`name` makes `path.join` throw inside `saveMetadataFile`; the per-repository
catch records one fetch-style error and the rest of the array — the fully
valid `cxEntryValidSib` among it — is never processed, so an entry passing
validation is not saved and added when such a sibling precedes it. -/
theorem claim10_counterexample :
    validateMetadata ["tools"] cxEntryNumName (some 0) = [] ∧
    validateMetadata ["tools"] cxEntryValidSib (some 1) = [] ∧
    processRepo [] ["tools"] ⟨[], [], []⟩
      ⟨⟨"o/r", "o", "r"⟩, .ok ⟨.str "v1", .str "Rel", .str "t"⟩
        (.arr [cxEntryNumName, cxEntryValidSib])⟩ =
      ⟨[], [fetchErrMsg "o/r" typeErrorText], []⟩ :=
  ⟨by decide, by decide, rfl⟩

lemma mergeApps_safe :
    ∀ (apps : List JVal) (cur : List Saved),
      (∀ app ∈ apps, appReadThrows app = false ∧ saveThrows app = false) →
      mergeApps cur apps = (cur ++ (specKeptApps cur apps).map mkSavedOf, false) := by
  intro apps
  induction apps with
  | nil => intro cur _; simp [mergeApps, specKeptApps]
  | cons app rest ih =>
      intro cur hsafe
      obtain ⟨hrd, hsv⟩ := hsafe app (List.mem_cons_self _ _)
      have htail := fun a ha => hsafe a (List.mem_cons_of_mem _ ha)
      by_cases hex : ∃ s ∈ cur, sameApp s.record app = true
      · have hany : cur.any (fun s => sameApp s.record app) = true :=
          List.any_eq_true.2 hex
        simp only [mergeApps, hrd, Bool.false_eq_true, if_false, hany, if_true,
          specKeptApps, hex]
        exact ih cur htail
      · have hany : cur.any (fun s => sameApp s.record app) = false := by
          rw [← Bool.not_eq_true, List.any_eq_true]
          exact hex
        simp only [mergeApps, hrd, hany, hsv, Bool.false_eq_true, if_false,
          specKeptApps, hex]
        rw [ih _ htail]
        simp

/-- One step of `mergeManual`, the let bindings spelled out. -/
lemma mergeManual_cons (rs : CatResults) (c : String) (apps : List JVal)
    (rest : List (String × List JVal)) :
    mergeManual rs ((c, apps) :: rest) =
      (if (mergeApps ((lookupCat (ensureCat rs c) c).getD []) apps).2 then
        (ensureCat rs c).map (fun p => if p.1 = c then
          (p.1, (mergeApps ((lookupCat (ensureCat rs c) c).getD []) apps).1) else p)
       else mergeManual ((ensureCat rs c).map (fun p => if p.1 = c then
          (p.1, (mergeApps ((lookupCat (ensureCat rs c) c).getD []) apps).1) else p))
         rest) := rfl

lemma lookupCat_ensureCat_self :
    ∀ (rs : CatResults) (c : String),
      lookupCat (ensureCat rs c) c = some ((lookupCat rs c).getD []) := by
  intro rs
  induction rs with
  | nil => intro c; simp [ensureCat, lookupCat]
  | cons p rest ih =>
      intro c
      obtain ⟨k, l⟩ := p
      by_cases hk : k = c
      · simp [ensureCat, lookupCat, hk]
      · simp [ensureCat, lookupCat, hk, ih]

lemma lookupCat_ensureCat_ne :
    ∀ (rs : CatResults) (c c2 : String), c2 ≠ c →
      lookupCat (ensureCat rs c) c2 = lookupCat rs c2 := by
  intro rs
  induction rs with
  | nil => intro c c2 h; simp [ensureCat, lookupCat, Ne.symm h]
  | cons p rest ih =>
      intro c c2 h
      obtain ⟨k, l⟩ := p
      by_cases hk : k = c
      · simp [ensureCat, lookupCat, hk, Ne.symm h]
      · by_cases hk2 : k = c2
        · simp [ensureCat, lookupCat, hk, hk2, h]
        · simp [ensureCat, lookupCat, hk, hk2, ih _ _ h]

lemma lookupCat_setAll_self :
    ∀ (l : CatResults) (c : String) (L : List Saved),
      lookupCat (l.map (fun p => if p.1 = c then (p.1, L) else p)) c =
        (lookupCat l c).map (fun _ => L) := by
  intro l
  induction l with
  | nil => intro c L; simp [lookupCat]
  | cons p rest ih =>
      intro c L
      obtain ⟨k, v⟩ := p
      simp only [List.map_cons]
      by_cases hk : k = c
      · subst hk
        rw [if_pos rfl]
        unfold lookupCat
        rw [if_pos rfl, if_pos rfl]
        rfl
      · rw [if_neg hk]
        unfold lookupCat
        rw [if_neg hk, if_neg hk]
        exact ih c L

lemma lookupCat_setAll_ne :
    ∀ (l : CatResults) (c c2 : String) (L : List Saved), c2 ≠ c →
      lookupCat (l.map (fun p => if p.1 = c then (p.1, L) else p)) c2 =
        lookupCat l c2 := by
  intro l
  induction l with
  | nil => intro c c2 L h; simp [lookupCat]
  | cons p rest ih =>
      intro c c2 L h
      obtain ⟨k, v⟩ := p
      simp only [List.map_cons]
      by_cases hk : k = c
      · subst hk
        rw [if_pos rfl]
        unfold lookupCat
        rw [if_neg (Ne.symm h), if_neg (Ne.symm h)]
        exact ih k c2 L h
      · rw [if_neg hk]
        unfold lookupCat
        by_cases hk2 : k = c2
        · rw [if_pos hk2, if_pos hk2]
        · rw [if_neg hk2, if_neg hk2]
          exact ih c c2 L h

lemma mergeManual_lookup_notin :
    ∀ (manual : List (String × List JVal)) (rs : CatResults) (c : String),
      c ∉ manual.map Prod.fst →
      lookupCat (mergeManual rs manual) c = lookupCat rs c := by
  intro manual
  induction manual with
  | nil => intro rs c h; rfl
  | cons p rest ih =>
      intro rs c h
      obtain ⟨c0, apps0⟩ := p
      simp only [List.map_cons, List.mem_cons] at h
      push_neg at h
      rw [mergeManual_cons]
      have hset : lookupCat ((ensureCat rs c0).map (fun p => if p.1 = c0 then
          (p.1, (mergeApps ((lookupCat (ensureCat rs c0) c0).getD []) apps0).1)
          else p)) c = lookupCat rs c := by
        rw [lookupCat_setAll_ne _ _ _ _ h.1, lookupCat_ensureCat_ne _ _ _ h.1]
      by_cases hfl : (mergeApps ((lookupCat (ensureCat rs c0) c0).getD []) apps0).2
      · rw [if_pos hfl]
        exact hset
      · rw [if_neg hfl]
        rw [ih _ _ h.2]
        exact hset

lemma mergeManual_lookup_mem :
    ∀ (manual : List (String × List JVal)) (rs : CatResults) (c : String)
      (apps : List JVal), (manual.map Prod.fst).Nodup →
      (∀ p ∈ manual, ∀ app ∈ p.2,
        appReadThrows app = false ∧ saveThrows app = false) →
      (c, apps) ∈ manual →
      lookupCat (mergeManual rs manual) c =
        some (((lookupCat rs c).getD []) ++
          (specKeptApps ((lookupCat rs c).getD []) apps).map mkSavedOf) := by
  intro manual
  induction manual with
  | nil => intro rs c apps hnd hsafe hmem; cases hmem
  | cons p rest ih =>
      intro rs c apps hnd hsafe hmem
      obtain ⟨c0, apps0⟩ := p
      simp only [List.map_cons, List.nodup_cons] at hnd
      rcases List.mem_cons.1 hmem with heq | htail
      · obtain ⟨rfl, rfl⟩ := Prod.mk.inj heq
        have hs0 := hsafe (c, apps) (List.mem_cons_self _ _)
        have hflag : (mergeApps ((lookupCat (ensureCat rs c) c).getD []) apps).2 =
            false := by
          rw [mergeApps_safe apps _ hs0]
        rw [mergeManual_cons, hflag, if_neg Bool.false_ne_true]
        rw [mergeManual_lookup_notin rest _ _ hnd.1]
        rw [lookupCat_setAll_self, lookupCat_ensureCat_self]
        simp [mergeApps_safe apps _ hs0]
      · have hc0 : c ≠ c0 := by
          intro hcc
          subst hcc
          exact hnd.1 (List.mem_map.2 ⟨(c, apps), htail, rfl⟩)
        have hs0 := hsafe (c0, apps0) (List.mem_cons_self _ _)
        have hflag : (mergeApps ((lookupCat (ensureCat rs c0) c0).getD []) apps0).2 =
            false := by
          rw [mergeApps_safe apps0 _ hs0]
        rw [mergeManual_cons, hflag, if_neg Bool.false_ne_true]
        rw [ih _ _ _ hnd.2 (fun p hp => hsafe p (List.mem_cons_of_mem _ hp)) htail]
        rw [lookupCat_setAll_ne _ _ _ _ hc0, lookupCat_ensureCat_ne _ _ _ hc0]

/-- C3 (amended).  Provided every listed app reads and saves without a
TypeError — the app an object with string `owner`, `repo` and `name`, so
that `path.join` accepts the segments — the manual merge behaves as claimed:
within each category of `releases_manual.json` (keys distinct, as parsed
JSON object keys are), an app is appended exactly when no app already
present in that category — a search-phase app or an earlier manual app —
matches it on `owner`, `repo` and `name` under strict equality, the matching
apps being dropped; the search-phase apps are a prefix of every merged list
and categories not listed in the manual file are untouched.  Without the
proviso a throwing save aborts the merge and later apps are never
appended. -/
theorem claim3_manual_merge (rs : CatResults)
    (manual : List (String × List JVal))
    (hnd : (manual.map Prod.fst).Nodup)
    (hsafe : ∀ p ∈ manual, ∀ app ∈ p.2,
      appReadThrows app = false ∧ saveThrows app = false) :
    (∀ (cur : List Saved) (apps : List JVal),
      (∀ app ∈ apps, appReadThrows app = false ∧ saveThrows app = false) →
      mergeApps cur apps = (cur ++ (specKeptApps cur apps).map mkSavedOf, false)) ∧
    (∀ c apps, (c, apps) ∈ manual →
      lookupCat (mergeManual rs manual) c =
        some (((lookupCat rs c).getD []) ++
          (specKeptApps ((lookupCat rs c).getD []) apps).map mkSavedOf)) ∧
    (∀ c, c ∉ manual.map Prod.fst →
      lookupCat (mergeManual rs manual) c = lookupCat rs c) :=
  ⟨fun cur apps hs => mergeApps_safe apps cur hs,
   fun c apps hmem => mergeManual_lookup_mem manual rs c apps hnd hsafe hmem,
   fun c hc => mergeManual_lookup_notin manual rs c hc⟩

theorem claim3_manual_merge_witness :
    lookupCat (mergeManual [] [("a", [JVal.obj [("name", JVal.str "x"),
        ("owner", JVal.str "o"), ("repo", JVal.str "r")]])]) "a" =
      some (((lookupCat ([] : CatResults) "a").getD []) ++
        (specKeptApps ((lookupCat ([] : CatResults) "a").getD [])
          [JVal.obj [("name", JVal.str "x"), ("owner", JVal.str "o"),
            ("repo", JVal.str "r")]]).map mkSavedOf) :=
  (claim3_manual_merge [] [("a", [JVal.obj [("name", JVal.str "x"),
      ("owner", JVal.str "o"), ("repo", JVal.str "r")]])]
    (by simp)
    (by
      intro p hp app ha
      rcases List.mem_singleton.1 hp with rfl
      rcases List.mem_singleton.1 ha with rfl
      exact ⟨rfl, rfl⟩)).2.1 "a" _ (List.mem_singleton.2 rfl)

/-- C3, counterexample to the claim as stated: the first manual app has no
`owner` or `repo`, so `path.join` throws inside `saveMetadataFile` and the
catch around the merge aborts it; the second app — no duplicate of anything,
its own save safe — is never appended, although the claim promises every
non-duplicate listed app is added. -/
theorem claim3_counterexample :
    mergeManual [] [("a",
      [JVal.obj [("name", JVal.str "x")],
       JVal.obj [("name", JVal.str "y"), ("owner", JVal.str "o"),
         ("repo", JVal.str "r")]])] = [("a", [])] ∧
    saveThrows (JVal.obj [("name", JVal.str "y"), ("owner", JVal.str "o"),
      ("repo", JVal.str "r")]) = false :=
  ⟨rfl, rfl⟩

lemma valid_entry_filesSafe (cats : List String) (e : JVal) (idx : Option Nat)
    (h : validateMetadata cats e idx = []) :
    fileListSafe (getF e "files") = true := by
  obtain ⟨-, -, ⟨fs, hfs, -, hall⟩, -, -⟩ := (validateMetadata_nil_iff cats e idx).1 h
  rw [hfs]
  simp only [fileListSafe, List.all_eq_true]
  intro f hf
  obtain ⟨-, -, -, hsrc, hdst⟩ := hall f hf
  rw [Bool.and_eq_true, Bool.not_eq_true', Bool.not_eq_true']
  exact ⟨(hasUnsafePath_false_iff _).2 hsrc, (hasUnsafePath_false_iff _).2 hdst⟩

lemma pushCat_all {P : String → Saved → Prop} :
    ∀ (rs : CatResults) (c : String) (s : Saved), ResultsAllK P rs → P c s →
      ResultsAllK P (pushCat rs c s) := by
  intro rs
  induction rs with
  | nil =>
      intro c s hall hs p hp s2 hs2
      simp [pushCat] at hp
      subst hp
      simp at hs2
      subst hs2
      exact hs
  | cons q rest ih =>
      intro c s hall hs p hp s2 hs2
      obtain ⟨k, l⟩ := q
      by_cases hk : k = c
      · subst hk
        rw [pushCat, if_pos rfl] at hp
        rcases List.mem_cons.1 hp with rfl | htail
        · rcases List.mem_append.1 hs2 with hold | hnew
          · exact hall (k, l) (List.mem_cons_self _ _) s2 hold
          · rw [List.mem_singleton.1 hnew]
            exact hs
        · exact hall p (List.mem_cons_of_mem _ htail) s2 hs2
      · rw [pushCat, if_neg hk] at hp
        rcases List.mem_cons.1 hp with rfl | htail
        · exact hall (k, l) (List.mem_cons_self _ _) s2 hs2
        · exact ih c s (fun q hq => hall q (List.mem_cons_of_mem _ hq)) hs p htail s2 hs2

lemma processEntries_all {P : String → Saved → Prop} (cats : List String)
    (r : Repo) (rel : Release) (isArr : Bool)
    (hpush : ∀ (e : JVal) (idx : Option Nat), validateMetadata cats e idx = [] →
      P (savedKey e) (mkSavedEntry r rel e)) :
    ∀ (es : List JVal) (i : Nat) (st : St), ResultsAllK P st.results →
      ResultsAllK P (((processEntries cats r rel isArr i es st).1).results) := by
  intro es
  induction es with
  | nil => intro i st h; exact h
  | cons e rest ih =>
      intro i st h
      by_cases hth : validateThrows e
      · simpa [processEntries, hth] using h
      · by_cases hval : validateMetadata cats e (if isArr then some i else none) = []
        · by_cases hsv : saveThrows (fullMetadata r rel e)
          · simpa [processEntries, hth, hval, hsv] using h
          · have hst : ResultsAllK P
                (pushCat st.results (savedKey e) (mkSavedEntry r rel e)) :=
              pushCat_all _ _ _ h (hpush e _ hval)
            simp [processEntries, hth, hval, hsv]
            exact ih (i + 1) _ hst
        · simp [processEntries, hth, hval]
          exact ih (i + 1) _ h

lemma processRepos_all {P : String → Saved → Prop} (bl cats : List String)
    (hpush : ∀ (r : Repo) (rel : Release) (e : JVal) (idx : Option Nat),
      validateMetadata cats e idx = [] → P (savedKey e) (mkSavedEntry r rel e)) :
    ∀ (rfs : List RepoFetch) (st : St), ResultsAllK P st.results →
      ResultsAllK P (processRepos bl cats st rfs).results := by
  intro rfs
  induction rfs with
  | nil => intro st h; exact h
  | cons rf rest ih =>
      intro st h
      refine ih _ ?_
      unfold processRepo
      split
      · exact h
      · cases rf.outcome with
        | fail m => exact h
        | ok rel raw =>
            rw [processOk_results]
            cases raw <;>
              exact processEntries_all cats rf.repo rel _
                (fun e idx he => hpush rf.repo rel e idx he) _ _ _ h

lemma mem_mergeApps :
    ∀ (apps : List JVal) (cur : List Saved) (s : Saved),
      s ∈ (mergeApps cur apps).1 →
      s ∈ cur ∨ ∃ app ∈ apps, s = mkSavedOf app := by
  intro apps
  induction apps with
  | nil => intro cur s h; exact Or.inl h
  | cons app rest ih =>
      intro cur s h
      by_cases hrd : appReadThrows app
      · simp only [mergeApps, hrd, if_true] at h
        exact Or.inl h
      · by_cases hdup : cur.any (fun s => sameApp s.record app)
        · simp only [mergeApps, hrd, Bool.false_eq_true, if_false, hdup,
            if_true] at h
          rcases ih cur s h with h1 | ⟨a, ha, rfl⟩
          · exact Or.inl h1
          · exact Or.inr ⟨a, List.mem_cons_of_mem _ ha, rfl⟩
        · by_cases hsv : saveThrows app
          · simp only [mergeApps, hrd, hdup, Bool.false_eq_true, if_false, hsv,
              if_true] at h
            exact Or.inl h
          · simp only [mergeApps, hrd, hdup, hsv, Bool.false_eq_true,
              if_false] at h
            rcases ih _ s h with h1 | ⟨a, ha, rfl⟩
            · rcases List.mem_append.1 h1 with h2 | h3
              · exact Or.inl h2
              · exact Or.inr ⟨app, List.mem_cons_self _ _, List.mem_singleton.1 h3⟩
            · exact Or.inr ⟨a, List.mem_cons_of_mem _ ha, rfl⟩

lemma mem_ensureCat :
    ∀ (rs : CatResults) (c : String) (p : String × List Saved),
      p ∈ ensureCat rs c → p ∈ rs ∨ p = (c, []) := by
  intro rs
  induction rs with
  | nil =>
      intro c p h
      simp [ensureCat] at h
      exact Or.inr h
  | cons q rest ih =>
      intro c p h
      obtain ⟨k, l⟩ := q
      by_cases hk : k = c
      · rw [ensureCat, if_pos hk] at h
        exact Or.inl h
      · rw [ensureCat, if_neg hk] at h
        rcases List.mem_cons.1 h with rfl | htail
        · exact Or.inl (List.mem_cons_self _ _)
        · rcases ih c p htail with h1 | h2
          · exact Or.inl (List.mem_cons_of_mem _ h1)
          · exact Or.inr h2

lemma ensureCat_all {P : String → Saved → Prop} (rs : CatResults) (c : String)
    (hall : ResultsAllK P rs) : ResultsAllK P (ensureCat rs c) := by
  intro p hp s hs
  rcases mem_ensureCat rs c p hp with hin | heq
  · exact hall p hin s hs
  · rw [heq] at hs
    cases hs

lemma lookupCat_mem :
    ∀ (l : CatResults) (c : String) (v : List Saved),
      lookupCat l c = some v → (c, v) ∈ l := by
  intro l
  induction l with
  | nil => intro c v h; cases h
  | cons q rest ih =>
      intro c v h
      obtain ⟨k, w⟩ := q
      by_cases hk : k = c
      · rw [lookupCat, if_pos hk] at h
        obtain rfl := Option.some.inj h
        rw [← hk]
        exact List.mem_cons_self _ _
      · rw [lookupCat, if_neg hk] at h
        exact List.mem_cons_of_mem _ (ih c v h)

lemma mergeManual_all {P : String → Saved → Prop} :
    ∀ (manual : List (String × List JVal)) (rs : CatResults),
      ResultsAllK P rs →
      (∀ p ∈ manual, ∀ app ∈ p.2, P p.1 (mkSavedOf app)) →
      ResultsAllK P (mergeManual rs manual) := by
  intro manual
  induction manual with
  | nil => intro rs h _; exact h
  | cons q rest ih =>
      intro rs h hman
      obtain ⟨c0, apps0⟩ := q
      have hbase : ResultsAllK P (ensureCat rs c0) := ensureCat_all rs c0 h
      have hcur : ∀ s ∈ ((lookupCat (ensureCat rs c0) c0).getD []), P c0 s := by
        intro s hs
        cases hlk : lookupCat (ensureCat rs c0) c0 with
        | none => rw [hlk] at hs; cases hs
        | some v =>
            rw [hlk] at hs
            exact hbase (c0, v) (lookupCat_mem _ _ _ hlk) s hs
      have hmerged : ∀ s ∈
          (mergeApps ((lookupCat (ensureCat rs c0) c0).getD []) apps0).1,
          P c0 s := by
        intro s hs
        rcases mem_mergeApps apps0 _ s hs with h1 | ⟨app, ha, rfl⟩
        · exact hcur s h1
        · exact hman (c0, apps0) (List.mem_cons_self _ _) app ha
      have hrs2 : ResultsAllK P
          ((ensureCat rs c0).map (fun p => if p.1 = c0 then
            (p.1, (mergeApps ((lookupCat (ensureCat rs c0) c0).getD []) apps0).1)
            else p)) := by
        intro p hp s hs
        obtain ⟨q, hq, rfl⟩ := List.mem_map.1 hp
        by_cases hqc : q.1 = c0
        · rw [if_pos hqc] at hs ⊢
          rw [hqc]
          exact hmerged s hs
        · rw [if_neg hqc] at hs ⊢
          exact hbase q hq s hs
      rw [mergeManual_cons]
      by_cases hfl :
          (mergeApps ((lookupCat (ensureCat rs c0) c0).getD []) apps0).2
      · rw [if_pos hfl]
        exact hrs2
      · rw [if_neg hfl]
        exact ih _ hrs2 (fun p hp => hman p (List.mem_cons_of_mem _ hp))

lemma sortResults_all {P : String → Saved → Prop} (nameLe : String → String → Bool)
    (rs : CatResults) (hall : ResultsAllK P rs) :
    ResultsAllK P (sortResults nameLe rs) := by
  intro p hp s hs
  unfold sortResults at hp
  obtain ⟨c, -, rfl⟩ := List.mem_map.1 hp
  cases hlk : lookupCat (rs.map (fun p =>
      (p.1, p.2.mergeSort (fun a b => nameLe (recName a) (recName b))))) c with
  | none => rw [hlk] at hs; cases hs
  | some v =>
      rw [hlk] at hs
      have hmem := lookupCat_mem _ c v hlk
      obtain ⟨q, hq, heq⟩ := List.mem_map.1 hmem
      have hc : q.1 = c := congrArg Prod.fst heq
      have hv : v = q.2.mergeSort (fun a b => nameLe (recName a) (recName b)) :=
        (congrArg Prod.snd heq).symm
      have hs2 : s ∈ q.2 := by
        rw [hv] at hs
        exact (List.mergeSort_perm q.2 _).mem_iff.1 hs
      have := hall q hq s hs2
      rw [hc] at this
      exact this

lemma runFinal_all {P : String → Saved → Prop} (nameLe : String → String → Bool)
    (inp : RunInput)
    (hpush : ∀ (r : Repo) (rel : Release) (e : JVal) (idx : Option Nat),
      validateMetadata inp.cats e idx = [] → P (savedKey e) (mkSavedEntry r rel e))
    (hman : ∀ m, inp.manual = some m → ∀ p ∈ m, ∀ app ∈ p.2, P p.1 (mkSavedOf app)) :
    ResultsAllK P (runFinal nameLe inp) := by
  unfold runFinal
  apply sortResults_all
  unfold runMerged runCollect
  cases hm : inp.manual with
  | none =>
      exact processRepos_all _ _ hpush _ _ (fun p hp => absurd hp (List.not_mem_nil p))
  | some m =>
      apply mergeManual_all
      · exact processRepos_all _ _ hpush _ _ (fun p hp => absurd hp (List.not_mem_nil p))
      · exact hman m hm

lemma lookupF_setF_ne :
    ∀ (l : List (String × JVal)) (key k : String) (v : JVal), k ≠ key →
      lookupF (setF l key v) k = lookupF l k := by
  intro l
  induction l with
  | nil => intro key k v h; simp [setF, lookupF, beq_iff_eq, Ne.symm h]
  | cons q rest ih =>
      intro key k v h
      obtain ⟨k0, w⟩ := q
      by_cases h0 : k0 = key
      · subst h0
        simp [setF, lookupF, beq_iff_eq, Ne.symm h]
      · by_cases h0k : k0 = k
        · subst h0k
          simp [setF, lookupF, beq_iff_eq, h0]
        · simp [setF, lookupF, beq_iff_eq, h0, h0k, ih _ _ _ h]

lemma getF_stripRecord_ne (m : JVal) (k : String)
    (h1 : k ≠ "metadata_file") (h2 : k ≠ "tag") (h3 : k ≠ "published_at")
    (h4 : k ≠ "files") :
    getF (stripRecord m) k = getF m k := by
  cases m <;>
    simp only [stripRecord, spreadSet, List.foldl_cons, List.foldl_nil, getF] <;>
    rw [lookupF_setF_ne _ _ _ _ h4, lookupF_setF_ne _ _ _ _ h3,
      lookupF_setF_ne _ _ _ _ h2, lookupF_setF_ne _ _ _ _ h1] <;>
    rfl

lemma record_category_manual (app : JVal) :
    getF (mkSavedOf app).record "category" = getF app "category" :=
  getF_stripRecord_ne app "category" (by decide) (by decide) (by decide) (by decide)

/-- C2 (amended).  Entries aggregated from fetched descriptors always carry a
path-safe file list into the persisted index, having passed
`validateMetadata`; apps merged from `releases_manual.json` undergo no path
check, so path safety of the whole index holds exactly under the hypothesis
that the manual file itself declares only safe paths. -/
theorem claim2_amended_path_safety (nameLe : String → String → Bool)
    (inp : RunInput)
    (hman : ∀ m, inp.manual = some m → ∀ p ∈ m, ∀ app ∈ p.2,
      fileListSafe (getF app "files") = true) :
    ∀ p ∈ runFinal nameLe inp, ∀ s ∈ p.2, savedFilesSafe s = true := by
  apply runFinal_all (P := fun _ s => savedFilesSafe s = true)
  · intro r rel e idx h
    show savedFilesSafe (mkSavedEntry r rel e) = true
    have hf : getF (mkSavedEntry r rel e).meta "files" = getF e "files" := rfl
    unfold savedFilesSafe
    rw [hf]
    exact valid_entry_filesSafe _ _ _ h
  · intro m hm p hp app ha
    exact hman m hm p hp app ha

/-- C8 (amended).  Every entry validated from a fetched descriptor is listed
under its own `category` field; an app merged from `releases_manual.json` is
listed under the manual file's category key with its own `category` field
left unchanged, so the grouping invariant for the whole index holds exactly
under the hypothesis that the manual file lists every app under the app's own
category. -/
theorem claim8_amended_grouping (nameLe : String → String → Bool)
    (inp : RunInput)
    (hman : ∀ m, inp.manual = some m → ∀ p ∈ m, ∀ app ∈ p.2,
      getF app "category" = JVal.str p.1) :
    ∀ p ∈ runFinal nameLe inp, ∀ s ∈ p.2,
      getF s.record "category" = JVal.str p.1 := by
  apply runFinal_all (P := fun c s => getF s.record "category" = JVal.str c)
  · intro r rel e idx h
    obtain ⟨-, -, -, -, c, hcat, -⟩ := (validateMetadata_nil_iff inp.cats e idx).1 h
    show getF (mkSavedEntry r rel e).record "category" = JVal.str (savedKey e)
    have hrec : getF (mkSavedEntry r rel e).record "category" = getF e "category" := rfl
    rw [hrec, hcat]
    unfold savedKey
    rw [hcat]
    rfl
  · intro m hm p hp app ha
    show getF (mkSavedOf app).record "category" = JVal.str p.1
    rw [record_category_manual]
    exact hman m hm p hp app ha

unseal List.merge List.mergeSort in
/-- C2, counterexample to the claim as stated: the manual app with `source`
`../../etc/passwd` and `destination` `~/boot` is aggregated into the
persisted index (its full metadata, file list included, persisted to its
metadata file) although its declared paths contain the banned substrings. -/
theorem claim2_counterexample :
    ((runFinal (fun a b => decide (a ≤ b)) cxManualUnsafe).map
      (fun p => (p.1, p.2.map savedFilesSafe)) = [("tools", [false])]) ∧
    hasUnsafePath "../../etc/passwd" = true ∧
    hasUnsafePath "~/boot" = true :=
  ⟨rfl, rfl, rfl⟩

unseal List.merge List.mergeSort in
theorem claim2_amended_path_safety_witness :
    savedFilesSafe (mkSavedEntry ⟨"o/r", "o", "r"⟩
      ⟨.str "v1", .str "Release 1", .str "t"⟩ wEntryValid) = true :=
  claim2_amended_path_safety (fun a b => decide (a ≤ b)) wRepoValid
    (fun m hm => nomatch hm)
    ("tools", [mkSavedEntry ⟨"o/r", "o", "r"⟩
      ⟨.str "v1", .str "Release 1", .str "t"⟩ wEntryValid])
    (by
      rw [show runFinal (fun a b => decide (a ≤ b)) wRepoValid =
        [("tools", [mkSavedEntry ⟨"o/r", "o", "r"⟩
          ⟨.str "v1", .str "Release 1", .str "t"⟩ wEntryValid])] from rfl]
      exact List.mem_singleton.2 rfl)
    _ (List.mem_singleton.2 rfl)

unseal List.merge List.mergeSort in
/-- C8, counterexample to the claim as stated: the app merged from the
manual file sits under the index key `games` while its own `category` field
is `tools`. -/
theorem claim8_counterexample :
    (runFinal (fun a b => decide (a ≤ b)) cxManualMiscat).map
      (fun p => (p.1, p.2.map (fun s => getF s.record "category"))) =
      [("games", [JVal.str "tools"])] ∧ ("tools" : String) ≠ "games" :=
  ⟨rfl, by decide⟩

unseal List.merge List.mergeSort in
theorem claim8_amended_grouping_witness :
    getF (mkSavedEntry ⟨"o/r", "o", "r"⟩
      ⟨.str "v1", .str "Release 1", .str "t"⟩ wEntryValid).record "category" =
      JVal.str "tools" :=
  claim8_amended_grouping (fun a b => decide (a ≤ b)) wRepoValid
    (fun m hm => nomatch hm)
    ("tools", [mkSavedEntry ⟨"o/r", "o", "r"⟩
      ⟨.str "v1", .str "Release 1", .str "t"⟩ wEntryValid])
    (by
      rw [show runFinal (fun a b => decide (a ≤ b)) wRepoValid =
        [("tools", [mkSavedEntry ⟨"o/r", "o", "r"⟩
          ⟨.str "v1", .str "Release 1", .str "t"⟩ wEntryValid])] from rfl]
      exact List.mem_singleton.2 rfl)
    _ (List.mem_singleton.2 rfl)

/-- C4.  In the persisted index the category keys are in ascending
lexicographic order and, within every category, the apps are in ascending
order of their `name` field under the total preorder `nameLe` induced by
`localeCompare`; this holds for every collection of validated and manually
merged entries. -/
theorem claim4_sorted_index (nameLe : String → String → Bool)
    (htrans : ∀ a b c, nameLe a b = true → nameLe b c = true → nameLe a c = true)
    (htot : ∀ a b, nameLe a b = true ∨ nameLe b a = true)
    (inp : RunInput) :
    ((runFinal nameLe inp).map Prod.fst).Sorted (· ≤ ·) ∧
    ∀ p ∈ runFinal nameLe inp,
      (p.2.map recName).Sorted (fun a b => nameLe a b = true) := by
  constructor
  · unfold runFinal sortResults
    rw [List.map_map]
    apply List.pairwise_map.2
    have base := @List.sorted_mergeSort String (fun a b => decide (a ≤ b))
      (fun a b c h1 h2 =>
        decide_eq_true (le_trans (of_decide_eq_true h1) (of_decide_eq_true h2)))
      (fun a b => by rcases le_total a b with h | h <;> simp [h])
      (((runMerged inp).map (fun p =>
        (p.1, p.2.mergeSort (fun a b => nameLe (recName a) (recName b))))).map Prod.fst)
    exact base.imp (fun h => of_decide_eq_true h)
  · intro p hp
    unfold runFinal sortResults at hp
    obtain ⟨c, -, rfl⟩ := List.mem_map.1 hp
    cases hlk : lookupCat ((runMerged inp).map (fun p =>
        (p.1, p.2.mergeSort (fun a b => nameLe (recName a) (recName b))))) c with
    | none => simp [hlk]
    | some v =>
        simp only [hlk, Option.getD_some]
        have hmem := lookupCat_mem _ c v hlk
        obtain ⟨q, hq, heq⟩ := List.mem_map.1 hmem
        have hv : v = q.2.mergeSort (fun a b => nameLe (recName a) (recName b)) :=
          (congrArg Prod.snd heq).symm
        rw [hv]
        apply List.pairwise_map.2
        exact @List.sorted_mergeSort Saved
          (fun a b => nameLe (recName a) (recName b))
          (fun a b c h1 h2 => htrans _ _ _ h1 h2)
          (fun a b => by rcases htot (recName a) (recName b) with h | h <;> simp [h])
          q.2

theorem claim4_sorted_index_witness :
    ((runFinal (fun a b => decide (a ≤ b)) wRepoValid).map Prod.fst).Sorted
      (· ≤ ·) :=
  (claim4_sorted_index (fun a b => decide (a ≤ b))
    (fun a b c h1 h2 =>
      decide_eq_true (le_trans (of_decide_eq_true h1) (of_decide_eq_true h2)))
    (fun a b => by
      rcases le_total a b with h | h
      · exact Or.inl (decide_eq_true h)
      · exact Or.inr (decide_eq_true h))
    wRepoValid).1

lemma ne_of_head (s t : String) (c d : Char) (hs : s.data.head? = some c)
    (ht : t.data.head? = some d) (hcd : c ≠ d) : s ≠ t := by
  intro he
  rw [he] at hs
  rw [hs] at ht
  exact hcd (Option.some.inj ht)

lemma head_dash (e : String) : ("- " ++ e).data.head? = some '-' := by
  rw [String.data_append]
  rfl

lemma head_errHeader (n : Nat) :
    ("### ⚠️ " ++ toString n ++ " Metadata / Processing Issues").data.head? =
      some '#' := by
  rw [String.data_append, String.data_append]
  rfl

lemma head_hitHeader (n : Nat) :
    ("### 🛑 " ++ toString n ++ " Blocked Repositories").data.head? =
      some '#' := by
  rw [String.data_append, String.data_append]
  rfl

lemma noErr_ne_dash (e : String) :
    "✅ No errors or warnings detected" ≠ "- " ++ e :=
  ne_of_head _ _ '✅' '-' rfl (head_dash e) (by decide)

lemma noErr_ne_errHeader (n : Nat) :
    "✅ No errors or warnings detected" ≠
      "### ⚠️ " ++ toString n ++ " Metadata / Processing Issues" :=
  ne_of_head _ _ '✅' '#' rfl (head_errHeader n) (by decide)

lemma noErr_ne_hitHeader (n : Nat) :
    "✅ No errors or warnings detected" ≠
      "### 🛑 " ++ toString n ++ " Blocked Repositories" :=
  ne_of_head _ _ '✅' '#' rfl (head_hitHeader n) (by decide)

lemma errorsReportLines_mem_err (manual : Bool) (errors hits : List String)
    (e : String) (he : e ∈ errors) :
    ("- " ++ e) ∈ errorsReportLines manual errors hits := by
  have hne : errors ≠ [] := List.ne_nil_of_mem he
  have hcond : ¬(errors = [] ∧ (manual = false ∨ hits = [])) := fun h => hne h.1
  unfold errorsReportLines
  rw [if_neg hcond, if_neg hne]
  refine List.mem_append.2 (Or.inr (List.mem_append.2 (Or.inl ?_)))
  refine List.mem_append.2 (Or.inl ?_)
  exact List.mem_cons.2 (Or.inr (List.mem_map.2 ⟨e, he, rfl⟩))

lemma errorsReportLines_mem_hit (errors hits : List String) (h : String)
    (hmem : h ∈ hits) :
    ("- " ++ h) ∈ errorsReportLines true errors hits := by
  have hne : hits ≠ [] := List.ne_nil_of_mem hmem
  have hcond : ¬(errors = [] ∧ ((true : Bool) = false ∨ hits = [])) := by
    rintro ⟨-, h2 | h2⟩
    · exact Bool.noConfusion h2
    · exact hne h2
  have hH : ¬(hits = [] ∨ (true : Bool) = false) := by
    rintro (h2 | h2)
    · exact hne h2
    · exact Bool.noConfusion h2
  unfold errorsReportLines
  rw [if_neg hcond, if_neg hH]
  refine List.mem_append.2 (Or.inr (List.mem_append.2 (Or.inr ?_)))
  exact List.mem_cons.2 (Or.inr (List.mem_map.2 ⟨h, hmem, rfl⟩))

lemma errorsReportLines_noErr_iff (manual : Bool) (errors hits : List String) :
    "✅ No errors or warnings detected" ∈ errorsReportLines manual errors hits ↔
      (errors = [] ∧ (manual = false ∨ hits = [])) := by
  by_cases hcond : errors = [] ∧ (manual = false ∨ hits = [])
  · refine iff_of_true ?_ hcond
    unfold errorsReportLines
    rw [if_pos hcond]
    exact List.mem_append.2 (Or.inr (List.mem_singleton.2 rfl))
  · refine iff_of_false ?_ hcond
    intro hmem
    unfold errorsReportLines at hmem
    rw [if_neg hcond] at hmem
    rcases List.mem_append.1 hmem with h1 | h2
    · rcases List.mem_cons.1 h1 with h | h
      · exact absurd h (by decide)
      · rw [List.mem_singleton] at h
        exact absurd h (by decide)
    · rcases List.mem_append.1 h2 with hE | hH
      · by_cases he : errors = []
        · rw [if_pos he] at hE
          cases hE
        · rw [if_neg he] at hE
          rcases List.mem_cons.1 hE with h | h
          · exact absurd h (noErr_ne_errHeader errors.length)
          · rcases List.mem_append.1 h with hmap | hlast
            · obtain ⟨e, -, heq⟩ := List.mem_map.1 hmap
              exact absurd heq.symm (noErr_ne_dash e)
            · rw [List.mem_singleton] at hlast
              exact absurd hlast (by decide)
      · by_cases hh : hits = [] ∨ manual = false
        · rw [if_pos hh] at hH
          cases hH
        · rw [if_neg hh] at hH
          rcases List.mem_cons.1 hH with h | h
          · exact absurd h (noErr_ne_hitHeader hits.length)
          · obtain ⟨e, -, heq⟩ := List.mem_map.1 h
            exact absurd heq.symm (noErr_ne_dash e)

/-- C5 (amended).  Every recorded metadata or processing error appears as an
item line of `ERRORS.md` on every run; a recorded blocklist hit appears only
when the run is manual; and the report claims that no errors or warnings were
detected exactly when the error list is empty and, on a manual run, no
blocklist hit was recorded — in particular, a scheduled run with blocklist
hits omits them and still claims a clean run. -/
theorem claim5_error_report (isManualRun : Bool) (errors hits : List String) :
    (∀ e ∈ errors, ("- " ++ e) ∈ errorsReportLines isManualRun errors hits) ∧
    (isManualRun = true → ∀ h ∈ hits,
      ("- " ++ h) ∈ errorsReportLines isManualRun errors hits) ∧
    ("✅ No errors or warnings detected" ∈ errorsReportLines isManualRun errors hits ↔
      (errors = [] ∧ (isManualRun = false ∨ hits = []))) :=
  ⟨fun e he => errorsReportLines_mem_err _ _ _ e he,
   fun hman h hh => by
     subst hman
     exact errorsReportLines_mem_hit _ _ h hh,
   errorsReportLines_noErr_iff _ _ _⟩

/-- C5, counterexample to the claim as stated: on a scheduled run with one
recorded blocklist hit and no errors, the written report is exactly the
clean-run text — it claims that no errors or warnings were detected and the
recorded hit appears nowhere in it. -/
theorem claim5_counterexample :
    errorsReportLines false [] [blockedMsg "o/r"] =
      ["# ❗ Error Report", "", "✅ No errors or warnings detected"] ∧
    ("- " ++ blockedMsg "o/r") ∉ errorsReportLines false [] [blockedMsg "o/r"] :=
  ⟨rfl, by decide⟩
